import Mathlib

/-!
Verification development for the DCP-o-matic package assembly engine
("Writer", `src/lib/writer.cc`) and the gap-filling video decoder
(`src/lib/video_decoder.cc`).

The definitions below are shallow embeddings of the C++ source.  Times are
modelled as integers (the source's `DCPTime` is a 64-bit fixed-point tick
count); buffers of audio samples are lists; reels (segments) carry their
time period; the writer's queue is a list of `QueueItem`s sorted with the
source's ordering key.
-/

/-- Modelled from the spec: `DCPTime` (from `dcpomatic_time.h`, which is not
among the provided sources) is a fixed-point count of ticks at 96000 per
second. -/
def timeHZ : Int := 96000

/-- Modelled from the spec: `DCPTime::frames_floor(r)` — the number of whole
frames at rate `r` in a time, with floor rounding ("floor sample-count
rounding").  For the positive divisor `timeHZ`, `Int.fdiv` is the
mathematical floor of `t * r / timeHZ`. -/
def frames_floor (t r : Int) : Int := Int.fdiv (t * r) timeHZ

/-- Modelled from the spec: `DCPTime::frames_ceil(r)` — ceiling rounding of
`t * r / timeHZ`. -/
def frames_ceil (t r : Int) : Int := -(Int.fdiv (-(t * r)) timeHZ)

/-- Modelled from the spec: `DCPTime::from_frames(f, r)` — the tick count of
`f` frames at rate `r` (exact whenever `r` divides `timeHZ`). -/
def dcpTimeFromFrames (f r : Int) : Int := f * timeHZ / r

/-- One reel (segment) of the package: its ordinal index and its time
period `[periodFrom, periodTo)` (from `ReelWriter::period()`). -/
structure Reel where
  idx : Nat
  periodFrom : Int
  periodTo : Int
deriving DecidableEq

/-- Embedding of the loop of `Writer::write(shared_ptr<const AudioBuffers>,
DCPTime)` (writer.cc 256-312).  `endT` is the end time computed once from the
original buffer; `t` is the running cursor; `audio` is the (remaining) buffer
as a list of per-frame samples.  Returns the `(reel index, samples)` writes
performed, in order.  The C++ `while (t < end)` tests the time before the
reel-end test; when the reel list is exhausted both tests lead to the same
empty output, so the recursion is structural on the reel list. -/
def audioLoop (afr endT : Int) : List Reel → Int → List Int → List (Nat × List Int)
  | [], _, _ => []
  | r :: rest, t, audio =>
    if t < endT then
      if endT ≤ r.periodTo then
        [(r.idx, audio)]
      else if r.periodTo ≤ t then
        audioLoop afr endT rest t audio
      else
        let p0 := frames_ceil (r.periodTo - t) afr
        let p1 := frames_floor (endT - r.periodTo) afr
        (if p0 ≠ 0 then [(r.idx, audio.take p0.toNat)] else []) ++
          audioLoop afr endT rest r.periodTo
            (if p1 ≠ 0 then (audio.drop p0.toNat).take p1.toNat else [])
    else []

/-- `Writer::write(audio, time)`: computes `end = time + from_frames(frames, afr)`
and runs the splitting loop from the current audio reel. -/
def audioWrite (afr : Int) (reels : List Reel) (t : Int) (audio : List Int) :
    List (Nat × List Int) :=
  audioLoop afr (t + dcpTimeFromFrames (audio.length : Int) afr) reels t audio

/-- Stereoscopic channel of a frame (`Eyes`); the source enum order is
`BOTH, LEFT, RIGHT`. -/
inductive Eyes where
  | both
  | left
  | right
deriving DecidableEq

/-- The integer value of the `Eyes` enum used by `operator<` on `QueueItem`. -/
def eyesRank : Eyes → Nat
  | Eyes.both => 0
  | Eyes.left => 1
  | Eyes.right => 2

/-- The three kinds of queue item (`QueueItem::Type`). -/
inductive QueueItemType where
  | full
  | fake
  | repeatFrame
deriving DecidableEq

/-- One pending write (`QueueItem`): type, optional in-memory payload (for
`FULL` items; `none` after a spill), recorded size (for `FAKE`), reel index,
frame offset within the reel, and channel. -/
structure QueueItem where
  qtype : QueueItemType
  encoded : Option Nat
  size : Nat
  reel : Nat
  frame : Int
  eyes : Eyes
deriving DecidableEq

/-- `operator< (QueueItem, QueueItem)` (writer.cc 930-942): lexicographic on
`(reel, frame, eyes)`. -/
def queueLTb (a b : QueueItem) : Bool :=
  if a.reel ≠ b.reel then decide (a.reel < b.reel)
  else if a.frame ≠ b.frame then decide (a.frame < b.frame)
  else decide (eyesRank a.eyes < eyesRank b.eyes)

/-- `_queue.sort()`: a stable sort by `operator<`; modelled with insertion
sort using the total preorder `¬ (b < a)`. -/
def sortQueue (q : List QueueItem) : List QueueItem :=
  q.insertionSort (fun a b => queueLTb b a = false)

/-- The per-reel record of the most recently written position
(`Writer::LastWritten`). -/
structure LastWritten where
  frame : Int
  eyes : Eyes
deriving DecidableEq

/-- `Writer::LastWritten::next(QueueItem)` (writer.cc 342-361): whether `qi`
continues the written sequence. -/
def LastWritten.next (lw : LastWritten) (qi : QueueItem) : Bool :=
  if qi.eyes = Eyes.both then
    decide (qi.frame = lw.frame + 1)
  else if lw.eyes = Eyes.left ∧ qi.frame = lw.frame ∧ qi.eyes = Eyes.right then
    true
  else if lw.eyes = Eyes.right ∧ qi.frame = lw.frame + 1 ∧ qi.eyes = Eyes.left then
    true
  else
    false

/-- `Writer::have_sequenced_image_at_queue_head` (writer.cc 329-339): empty
queue is not ready; otherwise sort and test the head against `LastWritten`
for its reel. -/
def have_sequenced_image_at_queue_head (lw : Nat → LastWritten) (q : List QueueItem) : Bool :=
  match q with
  | [] => false
  | _ :: _ =>
    match (sortQueue q).head? with
    | none => false
    | some f => (lw f.reel).next f

/-- The readiness condition as the spec states it: the head continues
`LastWritten` — monoscopic offset `last + 1`, or `Left→Right` at the same
offset, or `Right→Left` at the next offset. -/
def continues_spec (lw : LastWritten) (qi : QueueItem) : Prop :=
  (qi.eyes = Eyes.both ∧ qi.frame = lw.frame + 1) ∨
  (lw.eyes = Eyes.left ∧ qi.eyes = Eyes.right ∧ qi.frame = lw.frame) ∨
  (lw.eyes = Eyes.right ∧ qi.eyes = Eyes.left ∧ qi.frame = lw.frame + 1)

/-- A decoded image: either the decoder's pre-made black frame
(`_black_image`, already at the content's configured size) or a source
image identified by a number. -/
inductive Img where
  | black
  | srcImg (n : Nat)
deriving DecidableEq

/-- Which part of a decoded image a `ContentVideo` refers to (`Part`). -/
inductive VPart where
  | whole
  | leftHalf
  | rightHalf
  | topHalf
  | bottomHalf
deriving DecidableEq

/-- One entry of the decoder's `_decoded` list (`ContentVideo`). -/
structure ContentVideo where
  image : Img
  eyes : Eyes
  part : VPart
  frame : Int
deriving DecidableEq

/-- `VideoFrameType` of the content. -/
inductive VideoFrameType where
  | twoD
  | threeDLeftRight
  | threeDTopBottom
  | threeDAlternate
  | threeDLeft
  | threeDRight
deriving DecidableEq

/-- The decoder state used by `VideoDecoder::give`: the `_decoded` list, the
last seek target (already converted to a frame index, as
`_last_seek_time->frames_round(rate)` does), whether that seek was accurate,
and the `_ignore` flag. -/
structure VDState where
  decoded : List ContentVideo
  lastSeekFrame : Option Int
  lastSeekAccurate : Bool
  ignoreFlag : Bool
deriving DecidableEq

/-- `VideoDecoder::fill_one_eye` (video_decoder.cc 154-180): fill `_decoded`
from `f` up to but not including `t` with one frame per offset for eye `eye`,
using the last decoded image (and part) if any, otherwise the black image. -/
def fill_one_eye (f t : Int) (eye : Eyes) (decoded : List ContentVideo) :
    List ContentVideo :=
  if t = 0 then decoded
  else
    let fillerImage := match decoded.getLast? with
      | none => Img.black
      | some c => c.image
    let fillerPart := match decoded.getLast? with
      | none => VPart.whole
      | some c => c.part
    decoded ++ (List.range (t - f).toNat).map
      (fun i => ⟨fillerImage, eye, fillerPart, f + (i : Int)⟩)

/-- The reverse scan of `VideoDecoder::fill_both_eyes` (video_decoder.cc
200-212) looking for per-eye filler images.  Each slot is an
`Option Img × VPart` modelling the C++ `shared_ptr` (whose `!p` test is a
null test) plus the part; the slots start as `some Img.black` (a fresh
non-null `RawImageProxy` of `_black_image`), so the `l.1 = none` tests below
can never fire — exactly as in the source.  The loop breaks as soon as both
slots are non-null. -/
def scanFillers :
    List ContentVideo → Option Img × VPart → Option Img × VPart →
    (Option Img × VPart) × (Option Img × VPart)
  | [], l, r => (l, r)
  | c :: rest, l, r =>
    let p :=
      if c.eyes = Eyes.left ∧ l.1 = none then ((some c.image, c.part), r)
      else if c.eyes = Eyes.right ∧ r.1 = none then (l, (some c.image, c.part))
      else (l, r)
    if p.1.1.isSome ∧ p.2.1.isSome then p else scanFillers rest p.1 p.2

/-- The `while (filler_frame != to || filler_eye != eye)` loop of
`fill_both_eyes` (video_decoder.cc 228-249), alternating Left/Right and
advancing the frame after each Right.  The C++ loop terminates exactly when
`(frame, eye)` reaches `(t, targetEye)`; every call site passes a fuel that
dominates the iteration count in that case (the C++ loop would diverge on an
overshoot, which `give` never produces). -/
def fillBothLoop (fl fr : Img) (flp frp : VPart) (t : Int) (targetEye : Eyes) :
    Nat → Int → Eyes → List ContentVideo
  | 0, _, _ => []
  | fuel + 1, frame, eye =>
    if frame = t ∧ eye = targetEye then []
    else
      ⟨if eye = Eyes.left then fl else fr, eye,
       if eye = Eyes.left then flp else frp, frame⟩ ::
      (if eye = Eyes.left then
        fillBothLoop fl fr flp frp t targetEye fuel frame Eyes.right
      else
        fillBothLoop fl fr flp frp t targetEye fuel (frame + 1) Eyes.left)

/-- `VideoDecoder::fill_both_eyes` (video_decoder.cc 185-250): fill with
left/right pairs from the position after `_decoded`'s last entry up to
`(t, eye)`.  The filler images are taken from the (dead, see `scanFillers`)
reverse scan, defaulting to black. -/
def fill_both_eyes (f t : Int) (eye : Eyes) (decoded : List ContentVideo) :
    List ContentVideo :=
  if t = 0 ∧ eye = Eyes.left then decoded
  else
    let scanned := scanFillers decoded.reverse
      (some Img.black, VPart.whole) (some Img.black, VPart.whole)
    let fl := scanned.1.1.getD Img.black
    let flp := scanned.1.2
    let fr := scanned.2.1.getD Img.black
    let frp := scanned.2.2
    let start : Int × Eyes :=
      match decoded.getLast? with
      | none => (0, Eyes.left)
      | some c =>
        if c.eyes = Eyes.left then (c.frame, Eyes.right)
        else if c.eyes = Eyes.right then (c.frame + 1, Eyes.left)
        else (f, c.eyes)
    decoded ++
      fillBothLoop fl fr flp frp t eye ((2 * (t - start.1)).toNat + 2) start.1 start.2

/-- `VideoDecoder::give` (video_decoder.cc 252-348): build `to_push` from the
frame type, compute the gap `(from, to)` against the end of `_decoded` (or
the last accurate seek target), silently drop arrivals with `from > to`,
otherwise fill the gap, append `to_push`, and trim the list to at most 96
entries (the C++ `while (size > 96) pop_back()` keeps the front). -/
def give (ftype : VideoFrameType) (image : Img) (frame : Int) (st : VDState) :
    VDState :=
  if st.ignoreFlag then st
  else
    let to_push : List ContentVideo :=
      match ftype with
      | VideoFrameType.twoD => [⟨image, Eyes.both, VPart.whole, frame⟩]
      | VideoFrameType.threeDAlternate =>
        let same := st.decoded ≠ [] ∧
          (st.decoded.getLast?.map ContentVideo.frame) = some frame
        [⟨image, if same then Eyes.right else Eyes.left, VPart.whole, frame⟩]
      | VideoFrameType.threeDLeftRight =>
        [⟨image, Eyes.left, VPart.leftHalf, frame⟩,
         ⟨image, Eyes.right, VPart.rightHalf, frame⟩]
      | VideoFrameType.threeDTopBottom =>
        [⟨image, Eyes.left, VPart.topHalf, frame⟩,
         ⟨image, Eyes.right, VPart.bottomHalf, frame⟩]
      | VideoFrameType.threeDLeft => [⟨image, Eyes.left, VPart.whole, frame⟩]
      | VideoFrameType.threeDRight => [⟨image, Eyes.right, VPart.whole, frame⟩]
    let toFrame : Int := match to_push.head? with
      | some c => c.frame
      | none => 0
    let toEyes : Eyes := match to_push.head? with
      | some c => c.eyes
      | none => Eyes.left
    let fromTo : Option (Int × Int) :=
      if st.decoded = [] ∧ st.lastSeekFrame.isSome ∧ st.lastSeekAccurate then
        some (st.lastSeekFrame.getD 0, toFrame)
      else if st.decoded ≠ [] then
        some (((st.decoded.getLast?.map ContentVideo.frame).getD 0) + 1, toFrame)
      else
        none
    match fromTo with
    | some ft =>
      if ft.1 > ft.2 then st
      else
        let filled :=
          match ftype with
          | VideoFrameType.twoD => fill_one_eye ft.1 ft.2 Eyes.both st.decoded
          | VideoFrameType.threeDLeftRight =>
            fill_both_eyes ft.1 ft.2 toEyes st.decoded
          | VideoFrameType.threeDTopBottom =>
            fill_both_eyes ft.1 ft.2 toEyes st.decoded
          | VideoFrameType.threeDAlternate =>
            fill_both_eyes ft.1 ft.2 toEyes st.decoded
          | VideoFrameType.threeDLeft => fill_one_eye ft.1 ft.2 Eyes.left st.decoded
          | VideoFrameType.threeDRight => fill_one_eye ft.1 ft.2 Eyes.right st.decoded
        { st with decoded := (filled ++ to_push).take 96 }
    | none => { st with decoded := (st.decoded ++ to_push).take 96 }

/-- A font resource handed to `Writer::write(vector<shared_ptr<Font>>)`:
`key` stands for the object identity of the `shared_ptr<Font>` (the key of
`FontIdMap`), `fid` for `Font::id()`. -/
structure DFont where
  key : Nat
  fid : String
deriving DecidableEq

/-- The `fix_id` lambda (writer.cc 865-867): empty font IDs become "font". -/
def fix_id (id : String) : String := if id = "" then "font" else id

/-- Modelled from the spec: `FontIdMap::put` (the Font Table, whose header is
not among the provided sources) maps each font resource to its assigned
identifier; putting an already-present font replaces its identifier. -/
def fontPut (m : List (DFont × String)) (f : DFont) (id : String) :
    List (DFont × String) :=
  if m.any (fun p => p.1.key = f.key) then
    m.map (fun p => if p.1.key = f.key then (p.1, id) else p)
  else
    m ++ [(f, id)]

/-- The `underscore_number_position` lambda (writer.cc 881-895): the index of
a final `_N` suffix (the position of the last underscore if everything after
it is a digit), else `none` (`string::npos`). -/
def underscore_number_position (s : String) : Option Nat :=
  match s.data.enum.foldl (fun acc p => if p.2 = '_' then some p.1 else acc) none with
  | none => none
  | some pos =>
    if (s.data.drop (pos + 1)).all Char.isDigit then some pos else none

/-- The `while (used_ids.find(id) != used_ids.end())` loop (writer.cc
916-919): starting from the current candidate `id` with parsed suffix value
`num`, repeatedly increment the number and rebuild `pre ++ "_" ++ number`
until the candidate is not a used identifier.  `fuel` bounds the iterations;
`escapeId` passes `used.length + 1`, which is proved sufficient below. -/
def escapeLoop (used : List String) (pre : String) : Nat → String → Nat → String
  | 0, id, _ => id
  | fuel + 1, id, num =>
    if id ∈ used then
      escapeLoop used pre fuel (pre ++ "_" ++ Nat.repr (num + 1)) (num + 1)
    else
      id

/-- The collision-escape of the strict branch: run the increment loop with
sufficient fuel. -/
def escapeId (used : List String) (pre : String) (id : String) (num : Nat) :
    String :=
  escapeLoop used pre (used.length + 1) id num

/-- The identifier chosen for a colliding font ID in the strict branch
(writer.cc 904-921): give the ID a `_0` suffix if it has none, locate the
suffix (`end` is one past the underscore), parse its numeric value
(`dcp::raw_convert<int>`), and increment the suffix until the identifier is
unused. -/
def strictNewId (used : List String) (id : String) : String :=
  let idS := match underscore_number_position id with
    | none => id ++ "_0"
    | some _ => id
  let e := (underscore_number_position idS).getD 0 + 1
  let num := ((idS.drop e).toNat?).getD 0
  let pre := idS.take (e - 1)
  escapeId used pre idS num

/-- The strict (SMPTE) branch of `Writer::write(vector<shared_ptr<Font>>)`
(writer.cc 878-926), processing fonts in order while carrying the `_fonts`
map and the `used_ids` set (as a list; every insertion is of a fresh
identifier).  A unique fixed ID is put as-is (the source puts it twice: once
in the branch and once at the bottom of the loop); a colliding ID is
replaced by `strictNewId`. -/
def writeFontsStrictGo :
    List DFont → List (DFont × String) → List String →
    List (DFont × String) × List String
  | [], m, used => (m, used)
  | font :: rest, m, used =>
    let id := fix_id font.fid
    if id ∈ used then
      writeFontsStrictGo rest (fontPut m font (strictNewId used id))
        (used ++ [strictNewId used id])
    else
      writeFontsStrictGo rest (fontPut (fontPut m font id) font id) (used ++ [id])

/-- `Writer::write(vector<shared_ptr<Font>>)`, strict variant, starting from
an empty map and no used identifiers. -/
def writeFontsStrict (fonts : List DFont) : List (DFont × String) × List String :=
  writeFontsStrictGo fonts [] []

/-- The loose (Interop) branch of `Writer::write(vector<shared_ptr<Font>>)`
(writer.cc 869-877): every font is put with the fixed ID of the first font,
and the first font is recorded as `_chosen_interop_font` (the single embedded
font asset).  The empty-input early return (writer.cc 860-862) is shared with
the strict branch and handled by the caller. -/
def writeFontsInterop (fonts : List DFont) :
    List (DFont × String) × Option DFont :=
  match fonts with
  | [] => ([], none)
  | f0 :: _ =>
    (fonts.foldl (fun m f => fontPut m f (fix_id f0.fid)) [], some f0)

/-- Decimal digit characters of `n`, most significant first: the reference
semantics of `Nat.toDigitsCore` used to reason about the uniquified font
identifiers. -/
def reprChars (n : Nat) : List Char :=
  if _h : n < 10 then [Nat.digitChar n]
  else reprChars (n / 10) ++ [Nat.digitChar (n % 10)]
termination_by n
decreasing_by exact Nat.div_lt_self (by omega) (by omega)

/-- The error taxonomy of the claims: the invalid-signer failure is
`InvalidSignerError` in the source; the inconsistent-channel and
frame-out-of-range failures are `DCPOMATIC_ASSERT`s in the source (which
throw), named here as the spec names them. -/
inductive WriterError where
  | inconsistentChannel
  | invalidSigner
  | frameOutOfRange
deriving DecidableEq

/-- Modelled from the spec: `DCPTimePeriod::contains` — `from ≤ t < to`. -/
def periodContains (r : Reel) (t : Int) : Bool :=
  decide (r.periodFrom ≤ t ∧ t < r.periodTo)

/-- `Writer::video_reel` (writer.cc 968-979): the index of the first reel
whose period contains the frame's time; `none` models the
`DCPOMATIC_ASSERT (i < _reels.size())` failure. -/
def video_reel (vfr : Int) (reels : List Reel) (frame : Int) : Option Nat :=
  reels.findIdx? (fun r => periodContains r (dcpTimeFromFrames frame vfr))

/-- Modelled from the spec: `ReelWriter::start()` — the reel's start time in
video frames. -/
def reelStartFrame (vfr : Int) (r : Reel) : Int := r.periodFrom * vfr / timeHZ

/-- The state touched by `Writer::write(shared_ptr<const Data>, Frame, Eyes)`:
the queue and the count of in-memory FULL items. -/
structure WriterState where
  queue : List QueueItem
  queuedFullInMemory : Nat
deriving DecidableEq

/-- The channel-consistency condition asserted by the video `write`
(writer.cc 156): a 3D film takes only `LEFT`/`RIGHT`, a 2D film only
`BOTH`. -/
def eyesAgree (threeD : Bool) (eyes : Eyes) : Bool :=
  (threeD && !(eyes == Eyes.both)) || (!threeD && (eyes == Eyes.both))

/-- `Writer::write(shared_ptr<const Data>, Frame, Eyes)` (writer.cc 138-164),
without the backpressure wait (a concurrency construct): locate the reel,
check channel consistency (the source's `DCPOMATIC_ASSERT`, named
`InconsistentChannelError` by the spec), and enqueue a FULL item whose frame
is relative to the reel's start. -/
def writeVideoFrame (threeD : Bool) (vfr : Int) (reels : List Reel)
    (encoded : Nat) (frame : Int) (eyes : Eyes) (st : WriterState) :
    Except WriterError WriterState :=
  match video_reel vfr reels frame with
  | none => Except.error WriterError.frameOutOfRange
  | some ri =>
    if eyesAgree threeD eyes then
      Except.ok
        ⟨st.queue ++
          [⟨QueueItemType.full, some encoded, 0, ri,
            frame - reelStartFrame vfr (reels.getD ri ⟨0, 0, 0⟩), eyes⟩],
         st.queuedFullInMemory + 1⟩
    else
      Except.error WriterError.inconsistentChannel

/-- The content-version defaulting of `Writer::finish` (writer.cc 620-627):
the supplied versions, or a single version "1" when none are supplied. -/
def content_versions_for_cpl (supplied : List String) : List String :=
  if supplied = [] then ["1"] else supplied

/-- The finished, signed composition: the content versions it carries and the
fact that it was signed. -/
structure FinishedDCP where
  versions : List String
  signedOut : Bool
deriving DecidableEq

/-- The signer check of the `Writer` constructor (writer.cc 104-108): the
construction fails with `InvalidSignerError` when the configured signing
identity is invalid. -/
def writerInit (signerValid : Bool) : Except WriterError Unit :=
  if !signerValid then Except.error WriterError.invalidSigner else Except.ok ()

/-- The tail of `Writer::finish` (writer.cc 620-694) reduced to the state the
claims are about: the composition's content versions are assembled, then the
signer is re-checked (writer.cc 683-688) before `dcp.write_xml` signs and
writes the composition; an invalid signer fails with `InvalidSignerError`
and nothing is signed or written. -/
def finishDCP (signerValid : Bool) (supplied : List String) :
    Except WriterError FinishedDCP :=
  let cv := content_versions_for_cpl supplied
  if !signerValid then Except.error WriterError.invalidSigner
  else Except.ok ⟨cv, true⟩

/-- A half-open time period `[tFrom, tTo)` (`DCPTimePeriod`). -/
structure TimePeriod where
  tFrom : Int
  tTo : Int
deriving DecidableEq

/-- Modelled from the spec: `DCPTimePeriod::overlap` — the intersection of
two half-open periods, or `none` when empty. -/
def overlapPeriod (a b : TimePeriod) : Option TimePeriod :=
  let f := max a.tFrom b.tFrom
  let t := min a.tTo b.tTo
  if f < t then some ⟨f, t⟩ else none

/-- The `back_off` lambda (writer.cc 831-834): pull the end of a period back
by two video frames. -/
def back_off (vfr : Int) (p : TimePeriod) : TimePeriod :=
  ⟨p.tFrom, p.tTo - dcpTimeFromFrames 2 vfr⟩

/-- A stored cross-reel remainder of a timed text (`Writer::HangingText`);
`txt` stands for the text payload (the type/track routing picks the cursor
and is fixed here to one text stream). -/
structure HangingText where
  txt : Nat
  period : TimePeriod
deriving DecidableEq

/-- The hanging-text storage of the crossing branch (writer.cc 840-845): for
each subsequent reel that overlaps the period, store the overlap backed off
by two frames. -/
def storeHanging (txt : Nat) (vfr : Int) (laterReels : List Reel)
    (period : TimePeriod) : List HangingText :=
  laterReels.filterMap
    (fun i => (overlapPeriod ⟨i.periodFrom, i.periodTo⟩ period).map
      (fun o => ⟨txt, back_off vfr o⟩))

/-- `Writer::write_hanging_text` (writer.cc 1021-1033): flush (write) the
hanging texts whose period starts at this reel's start, keep the rest. -/
def write_hanging_text (r : Reel) (hanging : List HangingText) :
    List (Nat × TimePeriod) × List HangingText :=
  ((hanging.filter (fun h => h.period.tFrom = r.periodFrom)).map
     (fun h => (r.idx, h.period)),
   hanging.filter (fun h => ¬ h.period.tFrom = r.periodFrom))

/-- `Writer::write(PlayerText, TextType, optional<DCPTextTrack>,
DCPTimePeriod)` (writer.cc 804-854) for one text stream: advance the cursor
past reels that end before the period starts (flushing hanging texts on each
advance; `none` models the `DCPOMATIC_ASSERT` when the cursor runs off the
reel list); then, if the period crosses the current reel's end, store
backed-off hanging remainders for the later reels and truncate-and-back-off
the local write; finally emit the local write.  Returns the
`(reel index, period)` writes in order and the new hanging list. -/
def writeTextCall (vfr : Int) (txt : Nat) (period : TimePeriod) :
    List Reel → List HangingText →
    Option (List (Nat × TimePeriod) × List HangingText)
  | [], _ => none
  | r :: rest, hanging =>
    if r.periodTo ≤ period.tFrom then
      match rest with
      | [] => none
      | r' :: rest' =>
        let fh := write_hanging_text r' hanging
        (writeTextCall vfr txt period (r' :: rest') fh.2).map
          (fun res => (fh.1 ++ res.1, res.2))
    else
      if period.tTo > r.periodTo then
        some ([(r.idx, back_off vfr ⟨period.tFrom, r.periodTo⟩)],
              hanging ++ storeHanging txt vfr rest period)
      else
        some ([(r.idx, period)], hanging)

theorem ediv_bounds (a b : Int) (hb : 0 < b) :
    b * (a / b) ≤ a ∧ a < b * (a / b) + b := by
  have h1 := Int.ediv_add_emod a b
  have h2 := Int.emod_nonneg a (ne_of_gt hb)
  have h3 := Int.emod_lt_of_pos a hb
  constructor <;> linarith

theorem split_counts (afr t bnd F : Int) (hafr : 0 < afr)
    (hdvd : afr ∣ timeHZ) (h1 : t < bnd)
    (h2 : bnd < t + dcpTimeFromFrames F afr) :
    frames_ceil (bnd - t) afr + frames_floor (t + dcpTimeFromFrames F afr - bnd) afr = F ∧
    0 < frames_ceil (bnd - t) afr ∧
    0 ≤ frames_floor (t + dcpTimeFromFrames F afr - bnd) afr := by
  obtain ⟨q, hq⟩ := hdvd
  have hHZ : (0 : Int) < timeHZ := by decide
  have hq0 : 0 < q := by nlinarith
  have hff : dcpTimeFromFrames F afr = F * q := by
    unfold dcpTimeFromFrames
    rw [hq, show F * (afr * q) = afr * (F * q) by ring]
    exact Int.mul_ediv_cancel_left _ (ne_of_gt hafr)
  set u := bnd - t with hu
  have hu0 : 0 < u := by omega
  have huF : u < F * q := by rw [hff] at h2; omega
  have harg : t + dcpTimeFromFrames F afr - bnd = F * q - u := by rw [hff]; omega
  have hfc : frames_ceil u afr = -((-(u * afr)) / timeHZ) := by
    unfold frames_ceil
    rw [Int.fdiv_eq_ediv _ (le_of_lt hHZ)]
  have hfl : frames_floor (F * q - u) afr = ((F * q - u) * afr) / timeHZ := by
    unfold frames_floor
    rw [Int.fdiv_eq_ediv _ (le_of_lt hHZ)]
  set c := (-(u * afr)) / timeHZ with hc
  set d := ((F * q - u) * afr) / timeHZ with hd
  obtain ⟨hc1, hc2⟩ := ediv_bounds (-(u * afr)) timeHZ hHZ
  obtain ⟨hd1, hd2⟩ := ediv_bounds ((F * q - u) * afr) timeHZ hHZ
  rw [← hc] at hc1 hc2
  rw [← hd] at hd1 hd2
  have hkey : (F * q - u) * afr = F * timeHZ - u * afr := by rw [hq]; ring
  rw [hkey] at hd1 hd2
  have e1 : timeHZ * (F + c) ≤ F * timeHZ - u * afr := by
    have : timeHZ * (F + c) = timeHZ * F + timeHZ * c := by ring
    linarith
  have e2 : F * timeHZ - u * afr < timeHZ * (F + c) + timeHZ := by
    have : timeHZ * (F + c) = timeHZ * F + timeHZ * c := by ring
    linarith
  have hdle : d ≤ F + c := by
    have hm : timeHZ * d < timeHZ * (F + c + 1) := by linarith
    have := lt_of_mul_lt_mul_left hm (le_of_lt hHZ)
    omega
  have hdge : F + c ≤ d := by
    have hm : timeHZ * (F + c) < timeHZ * (d + 1) := by linarith
    have := lt_of_mul_lt_mul_left hm (le_of_lt hHZ)
    omega
  have hua : 0 < u * afr := mul_pos hu0 hafr
  have hcneg : c < 0 := by
    by_contra hcc
    push_neg at hcc
    have : 0 ≤ timeHZ * c := mul_nonneg (le_of_lt hHZ) hcc
    linarith
  have hv : 0 < (F * q - u) * afr := mul_pos (by omega) hafr
  rw [hkey] at hv
  have hdnn : 0 ≤ d := by
    by_contra hdd
    push_neg at hdd
    have : timeHZ * d ≤ timeHZ * (-1) := by
      apply mul_le_mul_of_nonneg_left (by omega) (le_of_lt hHZ)
    linarith
  refine ⟨?_, ?_, ?_⟩
  · rw [harg, hfc, hfl]; omega
  · rw [hfc]; omega
  · rw [harg, hfl]; omega

/-- C1: an audio buffer spanning a reel boundary is split with ceiling
rounding before the boundary and floor rounding after it; the two counts sum
to exactly the input length, and the samples written to the two reels
concatenate back to the input with nothing duplicated or dropped. -/
theorem audio_boundary_split (afr t : Int) (r1 r2 : Reel) (rest : List Reel)
    (audio : List Int) (hafr : 0 < afr) (hdvd : afr ∣ timeHZ)
    (h1 : t < r1.periodTo)
    (h2 : r1.periodTo < t + dcpTimeFromFrames (audio.length : Int) afr)
    (h3 : t + dcpTimeFromFrames (audio.length : Int) afr ≤ r2.periodTo) :
    frames_ceil (r1.periodTo - t) afr +
      frames_floor (t + dcpTimeFromFrames (audio.length : Int) afr - r1.periodTo) afr
      = (audio.length : Int) ∧
    audioWrite afr (r1 :: r2 :: rest) t audio =
      [(r1.idx, audio.take (frames_ceil (r1.periodTo - t) afr).toNat),
       (r2.idx, audio.drop (frames_ceil (r1.periodTo - t) afr).toNat)] ∧
    ((audioWrite afr (r1 :: r2 :: rest) t audio).map Prod.snd).flatten = audio := by
  obtain ⟨hsum, hp0, hp1⟩ :=
    split_counts afr t r1.periodTo (audio.length : Int) hafr hdvd h1 h2
  set endT := t + dcpTimeFromFrames (audio.length : Int) afr with hendT
  set p0 := frames_ceil (r1.periodTo - t) afr with hp0def
  set p1 := frames_floor (endT - r1.periodTo) afr with hp1def
  have c1 : t < endT := lt_trans h1 h2
  have c2 : ¬ endT ≤ r1.periodTo := not_le.mpr h2
  have c3 : ¬ r1.periodTo ≤ t := not_le.mpr h1
  have c6 : p0 ≠ 0 := by omega
  have hlen : p0.toNat + p1.toNat = audio.length := by omega
  have haudio' :
      (if p1 ≠ 0 then (audio.drop p0.toNat).take p1.toNat else []) =
        audio.drop p0.toNat := by
    by_cases hz : p1 = 0
    · have : p0.toNat = audio.length := by omega
      simp [hz, this, List.drop_length]
    · have hd : (audio.drop p0.toNat).length ≤ p1.toNat := by
        simp [List.length_drop]; omega
      simp [hz, List.take_of_length_le hd]
  have heval : audioWrite afr (r1 :: r2 :: rest) t audio =
      [(r1.idx, audio.take p0.toNat), (r2.idx, audio.drop p0.toNat)] := by
    unfold audioWrite
    rw [← hendT]
    simp only [audioLoop, c1, c2, c3, h2, h3, if_true, if_false, ite_true,
      ite_false, not_le, not_lt, c6, ne_eq, not_false_eq_true, ← hp0def,
      ← hp1def, haudio']
    simp [c1, c2, c3, h2, h3, c6, haudio']
  refine ⟨hsum, heval, ?_⟩
  rw [heval]
  simp [List.take_append_drop]

theorem audio_boundary_split_witness :
    audioWrite 48000 [⟨0, 0, 4⟩, ⟨1, 4, 20⟩] 0 [10, 20, 30, 40] =
      [(0, [10, 20]), (1, [30, 40])] :=
  ((audio_boundary_split 48000 0 ⟨0, 0, 4⟩ ⟨1, 4, 20⟩ [] [10, 20, 30, 40]
    (by decide) (by decide) (by decide) (by decide) (by decide)).2.1).trans (by decide)

theorem next_iff_continues (lw : LastWritten) (qi : QueueItem) :
    lw.next qi = true ↔ continues_spec lw qi := by
  unfold LastWritten.next continues_spec
  rcases qi with ⟨qt, enc, sz, rl, fr, qeyes⟩
  rcases lw with ⟨lf, leyes⟩
  cases qeyes <;> cases leyes <;> simp

/-- C2: for a non-empty queue, after sorting by `(reel, frame, eyes)` the
head is ready exactly when it continues `LastWritten` for its reel —
monoscopic at `last.frame + 1`, or `Left→Right` at the same offset, or
`Right→Left` at the next offset; nothing else is ready. -/
theorem queue_head_ready_iff (lw : Nat → LastWritten) (q : List QueueItem)
    (h : QueueItem) (hh : (sortQueue q).head? = some h) :
    have_sequenced_image_at_queue_head lw q = true ↔
      continues_spec (lw h.reel) h := by
  cases q with
  | nil => simp [sortQueue, List.insertionSort] at hh
  | cons a as =>
    unfold have_sequenced_image_at_queue_head
    rw [hh]
    exact next_iff_continues _ _

theorem queue_head_ready_iff_witness :
    have_sequenced_image_at_queue_head (fun _ => ⟨-1, Eyes.right⟩)
      [⟨QueueItemType.full, some 0, 0, 0, 0, Eyes.both⟩] = true ↔
    continues_spec ⟨-1, Eyes.right⟩
      ⟨QueueItemType.full, some 0, 0, 0, 0, Eyes.both⟩ :=
  queue_head_ready_iff (fun _ => ⟨-1, Eyes.right⟩)
    [⟨QueueItemType.full, some 0, 0, 0, 0, Eyes.both⟩]
    ⟨QueueItemType.full, some 0, 0, 0, 0, Eyes.both⟩ (by decide)

/-- C3: at the failing input — stereoscopic (left/right) content whose
`_decoded` holds frame 0 for both eyes with a real decoded image
(`srcImg 5`), receiving frame 2 — the gap at frame 1 is filled with the
fully black image for both eyes, although a most-recently-decoded image
exists; the claim (and the source's own comment) say the decoded image
should be used.  The reverse scan in `fill_both_eyes` is dead because its
filler pointers are initialised to a non-null black proxy. -/
theorem stereo_fill_uses_black_not_last_image :
    (give VideoFrameType.threeDLeftRight (Img.srcImg 9) 2
      ⟨[⟨Img.srcImg 5, Eyes.left, VPart.leftHalf, 0⟩,
        ⟨Img.srcImg 5, Eyes.right, VPart.rightHalf, 0⟩], none, true, false⟩).decoded =
      [⟨Img.srcImg 5, Eyes.left, VPart.leftHalf, 0⟩,
       ⟨Img.srcImg 5, Eyes.right, VPart.rightHalf, 0⟩,
       ⟨Img.black, Eyes.left, VPart.whole, 1⟩,
       ⟨Img.black, Eyes.right, VPart.whole, 1⟩,
       ⟨Img.srcImg 9, Eyes.left, VPart.leftHalf, 2⟩,
       ⟨Img.srcImg 9, Eyes.right, VPart.rightHalf, 2⟩] := by
  decide

/-- C4: a frame arriving strictly earlier than the known frontier (the last
decoded frame) is silently dropped: the state is returned unchanged, no
filler is synthesised and no error is raised. -/
theorem late_arrival_dropped (ftype : VideoFrameType) (img : Img) (frame : Int)
    (st : VDState) (c : ContentVideo) (hig : st.ignoreFlag = false)
    (hlast : st.decoded.getLast? = some c) (hlt : frame < c.frame) :
    give ftype img frame st = st := by
  have hne : st.decoded ≠ [] := by
    intro he
    rw [he] at hlast
    simp at hlast
  cases ftype <;>
    simp [give, hne, hlast, hig, show c.frame + 1 > frame by omega]

theorem late_arrival_dropped_witness :
    give VideoFrameType.twoD (Img.srcImg 1) 0
      ⟨[⟨Img.srcImg 0, Eyes.both, VPart.whole, 5⟩], none, true, false⟩ =
    ⟨[⟨Img.srcImg 0, Eyes.both, VPart.whole, 5⟩], none, true, false⟩ :=
  late_arrival_dropped VideoFrameType.twoD (Img.srcImg 1) 0
    ⟨[⟨Img.srcImg 0, Eyes.both, VPart.whole, 5⟩], none, true, false⟩
    ⟨Img.srcImg 0, Eyes.both, VPart.whole, 5⟩ rfl (by decide) (by decide)

/-- C7: a finalize with no supplied content versions emits a composition
carrying exactly the single version "1"; a non-empty supplied list is carried
through unchanged. -/
theorem finish_content_versions_default :
    finishDCP true [] = Except.ok ⟨["1"], true⟩ ∧
    ∀ l : List String, l ≠ [] → finishDCP true l = Except.ok ⟨l, true⟩ := by
  constructor
  · rfl
  · intro l hl
    simp [finishDCP, content_versions_for_cpl, hl]

theorem finish_content_versions_default_witness :
    finishDCP true ["v2"] = Except.ok ⟨["v2"], true⟩ ∧
    finishDCP true [] = Except.ok ⟨["1"], true⟩ :=
  ⟨finish_content_versions_default.2 ["v2"] (by decide),
   finish_content_versions_default.1⟩

/-- C8: the video `write` fails (the spec's `InconsistentChannelError`; a
throwing `DCPOMATIC_ASSERT` in the source) exactly when the package's
stereoscopic-ness disagrees with the supplied channel — a 3D package given
`Both`, or a 2D package given `Left`/`Right` — and otherwise succeeds by
enqueueing a `Full` item; the channel is never coerced. -/
theorem video_write_channel_check (threeD : Bool) (vfr : Int)
    (reels : List Reel) (encoded : Nat) (frame : Int) (eyes : Eyes)
    (st : WriterState) (ri : Nat)
    (hreel : video_reel vfr reels frame = some ri) :
    (eyesAgree threeD eyes = false →
      writeVideoFrame threeD vfr reels encoded frame eyes st =
        Except.error WriterError.inconsistentChannel) ∧
    (eyesAgree threeD eyes = true →
      writeVideoFrame threeD vfr reels encoded frame eyes st =
        Except.ok ⟨st.queue ++
          [⟨QueueItemType.full, some encoded, 0, ri,
            frame - reelStartFrame vfr (reels.getD ri ⟨0, 0, 0⟩), eyes⟩],
          st.queuedFullInMemory + 1⟩) ∧
    (eyesAgree threeD eyes = false ↔
      (threeD = true ∧ eyes = Eyes.both) ∨ (threeD = false ∧ eyes ≠ Eyes.both)) := by
  refine ⟨?_, ?_, ?_⟩
  · intro hdis
    unfold writeVideoFrame
    rw [hreel]
    simp [hdis]
  · intro hagr
    unfold writeVideoFrame
    rw [hreel]
    simp [hagr]
  · cases threeD <;> cases eyes <;> simp [eyesAgree]

theorem video_write_channel_check_witness :
    writeVideoFrame false 24 [⟨0, 0, 96000⟩] 7 0 Eyes.left ⟨[], 0⟩ =
      Except.error WriterError.inconsistentChannel :=
  (video_write_channel_check false 24 [⟨0, 0, 96000⟩] 7 0 Eyes.left ⟨[], 0⟩ 0
    (by decide)).1 (by decide)

/-- C9: the signing identity is checked both at construction and at
finalize, and in both places an invalid identity fails with
`InvalidSignerError` before any composition is signed or written. -/
theorem signer_checked_twice :
    (∀ b : Bool, b = false →
      writerInit b = Except.error WriterError.invalidSigner) ∧
    (∀ (b : Bool) (cvs : List String), b = false →
      finishDCP b cvs = Except.error WriterError.invalidSigner) := by
  constructor
  · intro b hb
    subst hb
    rfl
  · intro b cvs hb
    subst hb
    rfl

theorem signer_checked_twice_witness :
    writerInit false = Except.error WriterError.invalidSigner ∧
    finishDCP false ["v"] = Except.error WriterError.invalidSigner :=
  ⟨signer_checked_twice.1 false rfl, signer_checked_twice.2 false ["v"] rfl⟩

theorem reprChars_ne_nil (n : Nat) : reprChars n ≠ [] := by
  unfold reprChars
  split_ifs <;> simp

theorem reprChars_small {n : Nat} (h : n < 10) :
    reprChars n = [Nat.digitChar n] := by
  rw [reprChars]
  exact dif_pos h

theorem reprChars_large {n : Nat} (h : ¬ n < 10) :
    reprChars n = reprChars (n / 10) ++ [Nat.digitChar (n % 10)] := by
  rw [reprChars]
  exact dif_neg h

theorem toDigitsCore_eq_reprChars :
    ∀ (f n : Nat) (acc : List Char), n < f →
      Nat.toDigitsCore 10 f n acc = reprChars n ++ acc := by
  intro f
  induction f with
  | zero => intro n acc h; omega
  | succ f ih =>
    intro n acc h
    by_cases h0 : n / 10 = 0
    · have hn : n < 10 := by omega
      have hm : n % 10 = n := Nat.mod_eq_of_lt hn
      simp only [Nat.toDigitsCore, h0, if_true, hm]
      unfold reprChars
      rw [dif_pos hn]
      simp
    · have hn : ¬ n < 10 := by omega
      simp only [Nat.toDigitsCore, h0, if_false]
      rw [ih (n / 10) _ (by omega), reprChars_large hn]
      simp

theorem digitChar_inj10 : ∀ a : Nat, a < 10 → ∀ b : Nat, b < 10 →
    Nat.digitChar a = Nat.digitChar b → a = b := by decide

theorem reprChars_inj : ∀ m n : Nat, reprChars m = reprChars n → m = n := by
  intro m
  induction m using Nat.strong_induction_on with
  | _ m ih =>
    intro n h
    by_cases hm : m < 10 <;> by_cases hn : n < 10
    · rw [reprChars_small hm, reprChars_small hn] at h
      injection h with h1 _
      exact digitChar_inj10 m hm n hn h1
    · exfalso
      rw [reprChars_small hm, reprChars_large hn] at h
      have hl := congrArg List.length h
      simp only [List.length_append, List.length_cons, List.length_nil,
        List.length_singleton] at hl
      exact reprChars_ne_nil (n / 10) (List.length_eq_zero.mp (by omega))
    · exfalso
      rw [reprChars_large hm, reprChars_small hn] at h
      have hl := congrArg List.length h
      simp only [List.length_append, List.length_cons, List.length_nil,
        List.length_singleton] at hl
      exact reprChars_ne_nil (m / 10) (List.length_eq_zero.mp (by omega))
    · rw [reprChars_large hm, reprChars_large hn] at h
      have h' := congrArg List.reverse h
      simp only [List.reverse_append, List.reverse_cons, List.reverse_nil,
        List.nil_append, List.singleton_append] at h'
      injection h' with h1 h2
      have hmod : m % 10 = n % 10 :=
        digitChar_inj10 _ (Nat.mod_lt _ (by omega)) _ (Nat.mod_lt _ (by omega)) h1
      have hdiv : m / 10 = n / 10 :=
        ih (m / 10) (Nat.div_lt_self (by omega) (by omega)) (n / 10)
          (List.reverse_injective h2)
      omega

theorem natRepr_inj : ∀ m n : Nat, Nat.repr m = Nat.repr n → m = n := by
  have hrepr : ∀ k : Nat, Nat.repr k = (reprChars k).asString := by
    intro k
    show (Nat.toDigits 10 k).asString = _
    rw [show Nat.toDigits 10 k = Nat.toDigitsCore 10 (k + 1) k [] from rfl]
    rw [toDigitsCore_eq_reprChars (k + 1) k [] (by omega)]
    simp
  intro m n h
  rw [hrepr m, hrepr n] at h
  exact reprChars_inj m n (congrArg String.data h)

theorem cand_inj (pre : String) (j k : Nat)
    (h : pre ++ "_" ++ Nat.repr j = pre ++ "_" ++ Nat.repr k) : j = k := by
  have hd := congrArg String.data h
  simp only [String.data_append, List.append_assoc] at hd
  have hd2 := List.append_cancel_left hd
  have hd3 := List.append_cancel_left hd2
  exact natRepr_inj _ _ (String.ext hd3)

theorem exists_cand_free (used : List String) (pre : String) (n0 : Nat) :
    ∃ j, 1 ≤ j ∧ j ≤ used.length + 1 ∧ (pre ++ "_" ++ Nat.repr (n0 + j)) ∉ used := by
  by_contra hno
  push_neg at hno
  have hsub : ((List.range (used.length + 1)).map
      (fun i => pre ++ "_" ++ Nat.repr (n0 + 1 + i))).toFinset ⊆ used.toFinset := by
    intro x hx
    rw [List.mem_toFinset] at hx
    rw [List.mem_toFinset]
    obtain ⟨i, hi, rfl⟩ := List.mem_map.mp hx
    have hi' : i < used.length + 1 := List.mem_range.mp hi
    have hr : n0 + 1 + i = n0 + (i + 1) := by omega
    rw [hr]
    exact hno (i + 1) (by omega) (by omega)
  have hnodup : ((List.range (used.length + 1)).map
      (fun i => pre ++ "_" ++ Nat.repr (n0 + 1 + i))).Nodup := by
    refine List.Nodup.map ?_ (List.nodup_range _)
    intro a b hab
    have := cand_inj pre (n0 + 1 + a) (n0 + 1 + b) hab
    omega
  have hcard1 := List.toFinset_card_of_nodup hnodup
  have hcard2 := Finset.card_le_card hsub
  have hcard3 := List.toFinset_card_le used
  simp at hcard1
  omega

theorem escapeLoop_not_mem (used : List String) (pre : String) :
    ∀ (fuel : Nat) (id : String) (num : Nat),
      ((∃ j, 1 ≤ j ∧ j ≤ fuel ∧ (pre ++ "_" ++ Nat.repr (num + j)) ∉ used) ∨
        id ∉ used) →
      escapeLoop used pre fuel id num ∉ used := by
  intro fuel
  induction fuel with
  | zero =>
    intro id num h
    rcases h with ⟨j, hj1, hj2, _⟩ | h
    · omega
    · simpa [escapeLoop] using h
  | succ fuel ih =>
    intro id num h
    by_cases hid : id ∈ used
    · have hl : ∃ j, 1 ≤ j ∧ j ≤ fuel + 1 ∧
          (pre ++ "_" ++ Nat.repr (num + j)) ∉ used := by
        rcases h with hh | hh
        · exact hh
        · exact absurd hid hh
      obtain ⟨j, hj1, hj2, hj3⟩ := hl
      simp only [escapeLoop, if_pos hid]
      apply ih
      by_cases hj : j = 1
      · right
        subst hj
        exact hj3
      · left
        refine ⟨j - 1, by omega, by omega, ?_⟩
        have hr : num + 1 + (j - 1) = num + j := by omega
        rw [hr]
        exact hj3
    · simp only [escapeLoop, if_neg hid]
      exact hid

theorem escapeId_not_mem (used : List String) (pre id : String) (num : Nat) :
    escapeId used pre id num ∉ used := by
  unfold escapeId
  apply escapeLoop_not_mem
  by_cases hid : id ∈ used
  · left
    exact exists_cand_free used pre num
  · right
    exact hid

theorem strictNewId_not_mem (used : List String) (id : String) :
    strictNewId used id ∉ used := by
  unfold strictNewId
  exact escapeId_not_mem _ _ _ _

theorem fontPut_fresh (m : List (DFont × String)) (f : DFont) (id : String)
    (hf : ∀ p ∈ m, p.1.key ≠ f.key) : fontPut m f id = m ++ [(f, id)] := by
  unfold fontPut
  have hany : ¬ m.any (fun p => p.1.key = f.key) = true := by
    intro hc
    obtain ⟨p, hp, he⟩ := List.any_eq_true.mp hc
    exact hf p hp (of_decide_eq_true he)
  rw [if_neg hany]

theorem fontPut_again (m : List (DFont × String)) (f : DFont) (id : String)
    (hf : ∀ p ∈ m, p.1.key ≠ f.key) :
    fontPut (m ++ [(f, id)]) f id = m ++ [(f, id)] := by
  unfold fontPut
  have hany : (m ++ [(f, id)]).any (fun p => p.1.key = f.key) = true :=
    List.any_eq_true.mpr ⟨(f, id), by simp, by simp⟩
  rw [if_pos hany, List.map_append]
  congr 1
  · conv_rhs => rw [← List.map_id m]
    exact List.map_congr_left (fun p hp => if_neg (hf p hp))
  · simp

theorem writeFontsStrictGo_spec :
    ∀ (fonts : List DFont) (m : List (DFont × String)) (used : List String),
      (fonts.map DFont.key).Nodup →
      (∀ f ∈ fonts, ∀ p ∈ m, p.1.key ≠ f.key) →
      (∀ s ∈ m.map Prod.snd, s ∈ used) →
      (m.map Prod.snd).Nodup →
      used.Nodup →
      (writeFontsStrictGo fonts m used).1.length = m.length + fonts.length ∧
      (writeFontsStrictGo fonts m used).2.length = used.length + fonts.length ∧
      ((writeFontsStrictGo fonts m used).1.map Prod.snd).Nodup ∧
      (writeFontsStrictGo fonts m used).2.Nodup ∧
      ∀ s ∈ (writeFontsStrictGo fonts m used).1.map Prod.snd,
        s ∈ (writeFontsStrictGo fonts m used).2 := by
  intro fonts
  induction fonts with
  | nil =>
    intro m used _ _ h3 h4 h5
    simp only [writeFontsStrictGo]
    exact ⟨by simp, by simp, h4, h5, h3⟩
  | cons font rest ih =>
    intro m used h1 h2 h3 h4 h5
    have hkeys : ∀ p ∈ m, p.1.key ≠ font.key :=
      fun p hp => h2 font (List.mem_cons_self _ _) p hp
    have h1' : (rest.map DFont.key).Nodup := (List.nodup_cons.mp (by simpa using h1)).2
    have hfk : font.key ∉ rest.map DFont.key := (List.nodup_cons.mp (by simpa using h1)).1
    have hcommon : ∀ nid : String, nid ∉ used →
        (writeFontsStrictGo rest (m ++ [(font, nid)]) (used ++ [nid])).1.length =
          m.length + (rest.length + 1) ∧
        (writeFontsStrictGo rest (m ++ [(font, nid)]) (used ++ [nid])).2.length =
          used.length + (rest.length + 1) ∧
        ((writeFontsStrictGo rest (m ++ [(font, nid)]) (used ++ [nid])).1.map
          Prod.snd).Nodup ∧
        (writeFontsStrictGo rest (m ++ [(font, nid)]) (used ++ [nid])).2.Nodup ∧
        ∀ s ∈ (writeFontsStrictGo rest (m ++ [(font, nid)]) (used ++ [nid])).1.map
            Prod.snd,
          s ∈ (writeFontsStrictGo rest (m ++ [(font, nid)]) (used ++ [nid])).2 := by
      intro nid hnotin
      have hdisj : ∀ f ∈ rest, ∀ p ∈ m ++ [(font, nid)], p.1.key ≠ f.key := by
        intro f hf p hp
        rcases List.mem_append.mp hp with hp | hp
        · exact h2 f (List.mem_cons_of_mem _ hf) p hp
        · have hpe : p = (font, nid) := by simpa using hp
        
          subst hpe
          intro he
          exact hfk (he ▸ List.mem_map_of_mem DFont.key hf)
      have hsub : ∀ s ∈ (m ++ [(font, nid)]).map Prod.snd, s ∈ used ++ [nid] := by
        intro s hs
        rw [List.map_append] at hs
        rcases List.mem_append.mp hs with hs | hs
        · exact List.mem_append.mpr (Or.inl (h3 s hs))
        · have : s = nid := by simpa using hs
          subst this
          simp
      have hnm : ((m ++ [(font, nid)]).map Prod.snd).Nodup := by
        rw [List.map_append, List.nodup_append]
        refine ⟨h4, by simp, ?_⟩
        intro a ha hb
        have : a = nid := by simpa using hb
        subst this
        exact hnotin (h3 a ha)
      have hnu : (used ++ [nid]).Nodup := by
        rw [List.nodup_append]
        refine ⟨h5, by simp, ?_⟩
        intro a ha hb
        have : a = nid := by simpa using hb
        subst this
        exact hnotin ha
      obtain ⟨l1, l2, n1, n2, s1⟩ :=
        ih (m ++ [(font, nid)]) (used ++ [nid]) h1' hdisj hsub hnm hnu
      refine ⟨?_, ?_, n1, n2, s1⟩
      · rw [l1]
        simp only [List.length_append, List.length_singleton]
        omega
      · rw [l2]
        simp only [List.length_append, List.length_singleton]
        omega
    by_cases hid : fix_id font.fid ∈ used
    · have hnotin : strictNewId used (fix_id font.fid) ∉ used :=
        strictNewId_not_mem used _
      have hgo : writeFontsStrictGo (font :: rest) m used =
          writeFontsStrictGo rest
            (fontPut m font (strictNewId used (fix_id font.fid)))
            (used ++ [strictNewId used (fix_id font.fid)]) := by
        simp only [writeFontsStrictGo]
        rw [if_pos hid]
      rw [hgo, fontPut_fresh m font _ hkeys]
      have := hcommon (strictNewId used (fix_id font.fid)) hnotin
      simpa [List.length_cons] using this
    · have hgo : writeFontsStrictGo (font :: rest) m used =
          writeFontsStrictGo rest
            (fontPut (fontPut m font (fix_id font.fid)) font (fix_id font.fid))
            (used ++ [fix_id font.fid]) := by
        simp only [writeFontsStrictGo]
        rw [if_neg hid]
      rw [hgo, fontPut_fresh m font _ hkeys, fontPut_again m font _ hkeys]
      have := hcommon (fix_id font.fid) hid
      simpa [List.length_cons] using this

/-- C5: under the strict variant, `write(font_list)` over `N` fonts with
pairwise-distinct object identities assigns every font a unique identifier:
the output map has exactly `N` entries, its identifiers are pairwise
distinct, and the number of output entries equals the number of unique
identifiers assigned (`used_ids`), the source's own assertion. -/
theorem strict_fonts_unique (fonts : List DFont)
    (hk : (fonts.map DFont.key).Nodup) :
    (writeFontsStrict fonts).1.length = fonts.length ∧
    ((writeFontsStrict fonts).1.map Prod.snd).Nodup ∧
    (writeFontsStrict fonts).1.length = (writeFontsStrict fonts).2.length := by
  obtain ⟨l1, l2, n1, _, _⟩ :=
    writeFontsStrictGo_spec fonts [] [] hk (by simp) (by simp) (by simp) (by simp)
  unfold writeFontsStrict
  refine ⟨by simpa using l1, n1, ?_⟩
  rw [l1, l2]
  simp

theorem strict_fonts_unique_witness :
    ((writeFontsStrict [⟨0, "a"⟩, ⟨1, "a"⟩, ⟨2, ""⟩]).1.map Prod.snd).Nodup ∧
    (writeFontsStrict [⟨0, "a"⟩, ⟨1, "a"⟩, ⟨2, ""⟩]).1.length = 3 :=
  ⟨(strict_fonts_unique [⟨0, "a"⟩, ⟨1, "a"⟩, ⟨2, ""⟩] (by decide)).2.1,
   (strict_fonts_unique [⟨0, "a"⟩, ⟨1, "a"⟩, ⟨2, ""⟩] (by decide)).1⟩

theorem interop_fold (fid0 : String) :
    ∀ (fonts : List DFont) (m : List (DFont × String)),
      (∀ f ∈ fonts, ∀ p ∈ m, p.1.key ≠ f.key) →
      (fonts.map DFont.key).Nodup →
      fonts.foldl (fun acc f => fontPut acc f fid0) m =
        m ++ fonts.map (fun f => (f, fid0)) := by
  intro fonts
  induction fonts with
  | nil => intro m _ _; simp
  | cons font rest ih =>
    intro m hdisj hk
    have hkeys : ∀ p ∈ m, p.1.key ≠ font.key :=
      fun p hp => hdisj font (List.mem_cons_self _ _) p hp
    have hk' : (rest.map DFont.key).Nodup := (List.nodup_cons.mp (by simpa using hk)).2
    have hfk : font.key ∉ rest.map DFont.key := (List.nodup_cons.mp (by simpa using hk)).1
    have hdisj' : ∀ f ∈ rest, ∀ p ∈ m ++ [(font, fid0)], p.1.key ≠ f.key := by
      intro f hf p hp
      rcases List.mem_append.mp hp with hp | hp
      · exact hdisj f (List.mem_cons_of_mem _ hf) p hp
      · have hpe : p = (font, fid0) := by simpa using hp
        subst hpe
        intro he
        exact hfk (he ▸ List.mem_map_of_mem DFont.key hf)
    rw [List.foldl_cons, fontPut_fresh m font fid0 hkeys, ih _ hdisj' hk']
    simp

/-- C6: under the loose (Interop) variant, every font of a non-empty input
list is mapped to the single shared identifier derived from the first font's
own id (defaulted when empty), the map covers all `N` fonts, the set of
assigned identifiers is the singleton of that shared id, and only the first
font is chosen for embedding (exactly one embedded font asset). -/
theorem interop_fonts_single (f0 : DFont) (rest : List DFont)
    (hk : ((f0 :: rest).map DFont.key).Nodup) :
    (writeFontsInterop (f0 :: rest)).2 = some f0 ∧
    (writeFontsInterop (f0 :: rest)).1.length = (f0 :: rest).length ∧
    (∀ p ∈ (writeFontsInterop (f0 :: rest)).1, p.2 = fix_id f0.fid) ∧
    ((writeFontsInterop (f0 :: rest)).1.map Prod.snd).toFinset =
      {fix_id f0.fid} := by
  have hfold := interop_fold (fix_id f0.fid) (f0 :: rest) [] (by simp) hk
  unfold writeFontsInterop
  simp only [hfold, List.nil_append]
  refine ⟨trivial, by simp, ?_, ?_⟩
  · intro p hp
    obtain ⟨f, _, rfl⟩ := List.mem_map.mp hp
    rfl
  · ext x
    simp [List.mem_map, eq_comm]

theorem interop_fonts_single_witness :
    (writeFontsInterop [⟨0, "x"⟩, ⟨1, "y"⟩]).2 = some ⟨0, "x"⟩ ∧
    ((writeFontsInterop [⟨0, "x"⟩, ⟨1, "y"⟩]).1.map Prod.snd).toFinset =
      {fix_id "x"} :=
  ⟨(interop_fonts_single ⟨0, "x"⟩ [⟨1, "y"⟩] (by decide)).1,
   (interop_fonts_single ⟨0, "x"⟩ [⟨1, "y"⟩] (by decide)).2.2.2⟩

theorem overlap_to_le (a b o : TimePeriod)
    (ho : overlapPeriod a b = some o) : o.tTo ≤ b.tTo := by
  unfold overlapPeriod at ho
  dsimp only at ho
  split_ifs at ho with hc
  · have : (⟨max a.tFrom b.tFrom, min a.tTo b.tTo⟩ : TimePeriod) = o :=
      Option.some.inj ho
    subst this
    exact min_le_right _ _

theorem two_frame_tick_pos (vfr : Int) (h1 : 0 < vfr) (h2 : vfr ≤ 2 * timeHZ) :
    0 < dcpTimeFromFrames 2 vfr := by
  unfold dcpTimeFromFrames
  have : (1 : Int) ≤ 2 * timeHZ / vfr := by
    rw [Int.le_ediv_iff_mul_le h1]
    omega
  omega

/-- C10: a timed-text write whose validity period crosses the current reel's
end truncates the local write to end two frame-ticks before the boundary,
and every stored `HangingText` remainder is the overlap with a subsequent
reel backed off by two frame-ticks, so its end stays strictly before the
cue's stated end; consequently a later flush of a hanging part never reaches
that stated end time. -/
theorem hanging_text_backed_off (vfr : Int) (txt : Nat) (period : TimePeriod)
    (r : Reel) (rest : List Reel) (hanging : List HangingText)
    (hvfr : 0 < vfr) (hvfr2 : vfr ≤ 2 * timeHZ)
    (hcur : period.tFrom < r.periodTo) (hcross : r.periodTo < period.tTo) :
    writeTextCall vfr txt period (r :: rest) hanging =
      some ([(r.idx, back_off vfr ⟨period.tFrom, r.periodTo⟩)],
            hanging ++ storeHanging txt vfr rest period) ∧
    (∀ h ∈ storeHanging txt vfr rest period,
      (∃ i ∈ rest, ∃ o, overlapPeriod ⟨i.periodFrom, i.periodTo⟩ period = some o ∧
        h.period = back_off vfr o) ∧
      h.period.tTo < period.tTo) ∧
    (∀ r' : Reel,
      ∀ w ∈ (write_hanging_text r' (storeHanging txt vfr rest period)).1,
        w.2.tTo < period.tTo) := by
  have htick := two_frame_tick_pos vfr hvfr hvfr2
  have hmem : ∀ h ∈ storeHanging txt vfr rest period,
      (∃ i ∈ rest, ∃ o, overlapPeriod ⟨i.periodFrom, i.periodTo⟩ period = some o ∧
        h.period = back_off vfr o) ∧
      h.period.tTo < period.tTo := by
    intro h hh
    obtain ⟨i, hi, hio⟩ := List.mem_filterMap.mp hh
    obtain ⟨o, ho, hback⟩ := Option.map_eq_some'.mp hio
    have hle := overlap_to_le _ _ _ ho
    refine ⟨⟨i, hi, o, ho, by rw [← hback]⟩, ?_⟩
    rw [← hback]
    unfold back_off
    simp only
    omega
  refine ⟨?_, hmem, ?_⟩
  · unfold writeTextCall
    rw [if_neg (not_le.mpr hcur), if_pos hcross]
  · intro r' w hw
    unfold write_hanging_text at hw
    simp only at hw
    obtain ⟨h, hh, rfl⟩ := List.mem_map.mp hw
    exact (hmem h (List.mem_of_mem_filter hh)).2

theorem hanging_text_backed_off_witness :
    writeTextCall 24 3 ⟨90000, 100000⟩ [⟨0, 0, 96000⟩, ⟨1, 96000, 192000⟩] [] =
      some ([(0, ⟨90000, 88000⟩)], [⟨3, ⟨96000, 92000⟩⟩]) :=
  ((hanging_text_backed_off 24 3 ⟨90000, 100000⟩ ⟨0, 0, 96000⟩
    [⟨1, 96000, 192000⟩] [] (by decide) (by decide) (by decide) (by decide)).1).trans
    (by decide)
